import Mathlib

/-!
Verification of the row-alignment engine in `Source/santad/rust/traits.rs`.

The file `traits.rs` declares the `TableBuilder` trait and defines three free
functions over any `T: TableBuilder`: the `autocomplete_row` entry point, the
debug dump helper, and `debug_assert_row_counts`.  Those free functions are
embedded here verbatim as Lean functions over an abstract record of trait
operations (`TableBuilder`), with mutation turned into explicit state passing
and Rust panics made visible as an explicit `Fatal` outcome.

The trait *implementations* (per-table builders) are generated by the
`rednose_macro` crate and are not part of this repository's sources; the
concrete `Model` below is therefore modelled from the spec (sections 3, 4.2
and 4.4) and serves as the canonical instance of the trait record.
-/

/-- Errors returned by the engine.  `computeError` mirrors
`ArrowError::ComputeError(msg)` as built by the free `autocomplete_row` in
`traits.rs` (the Rust message also interpolates the builder's type name,
which has no observable counterpart here and is omitted).  The remaining
constructors are modelled from the spec's error kinds in section 7
(`NonNullableColumnIncomplete`, `FlushWithPendingRow`), which the generated
trait implementations raise. -/
inductive ArrowError where
  | computeError (msg : String)
  | nonNullableColumnIncomplete (i : Nat)
  | flushWithPendingRow
deriving DecidableEq

/-- The distinct ways the embedded code can abort the process, as opposed to
returning an `ArrowError`:
* `appendNullOnRoot`: `append_null` called on the root builder
  (documented fatal in `traits.rs`);
* `subUnderflow`: the `usize` subtraction `incomplete - 1` underflowing
  (a debug-build arithmetic panic);
* `unwrapNone i`: `dyn_builder(i).unwrap()` in `debug_assert_row_counts`
  receiving `None`;
* `assertColumnLen i len hi`: the `assert_eq!(builder.len(), hi, ...)` in
  `debug_assert_row_counts` failing at column `i`;
* `assertRowCount lo hi`: the final `assert_eq!(lo, hi, ...)` in
  `debug_assert_row_counts` failing. -/
inductive Fatal where
  | appendNullOnRoot
  | subUnderflow
  | unwrapNone (i : Nat)
  | assertColumnLen (i len hi : Nat)
  | assertRowCount (lo hi : Nat)
deriving DecidableEq

/-- Result of running a stateful operation: normal return with the new state,
an `ArrowError` returned to the caller together with the state the buffers
were left in, or a process abort (Rust panic). -/
inductive Outcome (σ : Type) where
  | ok (s : σ)
  | err (e : ArrowError) (s : σ)
  | fatal (p : Fatal)
deriving DecidableEq

/-- The `TableBuilder` trait of `traits.rs`, restricted to the operations the
free functions in that file use, as a record of state-passing operations over
a state type `σ`:

* `row_count` is `TableBuilder::row_count` (returns `(complete, incomplete)`);
* `autocomplete_row` is the trait method `TableBuilder::autocomplete_row(n)`
  (the generated recursive fill), returning the updated state or an error;
* `column_count` is `TableBuilder::column_count`;
* `dyn_builder` is `TableBuilder::dyn_builder(i)` projected to the only
  observation the free functions make of the returned `&dyn ArrayBuilder`,
  namely its `len()`; `none` models the method returning `None`. -/
structure TableBuilder (σ : Type) where
  row_count : σ → Nat × Nat
  autocomplete_row : σ → Nat → Except ArrowError σ
  column_count : σ → Nat
  dyn_builder : σ → Nat → Option Nat

/-- Checked `usize` subtraction: Rust debug builds abort on underflow, so the
embedding makes the check explicit and lets the caller map `none` to a
`Fatal.subUnderflow` outcome. -/
def csub (a b : Nat) : Option Nat :=
  if b ≤ a then some (a - b) else none

/-- Message of the first guard error in the free `autocomplete_row`
("No incomplete row in {type_name}", minus the type name). -/
def noIncompleteRowMsg : String := "No incomplete row"

/-- Message of the second guard error in the free `autocomplete_row`
("More than one incomplete row in {type_name} (complete: c, incomplete: i)",
minus the type name). -/
def multipleIncompleteRowsMsg (c i : Nat) : String :=
  "More than one incomplete row (complete: " ++ toString c ++
    ", incomplete: " ++ toString i ++ ")"

/-- The `for i in 0..column_count()` loop body of `debug_assert_row_counts`:
for each index in the list, unwrap `dyn_builder(i)` (abort with
`Fatal.unwrapNone` on `None`) and assert that its length equals `hi`
(abort with `Fatal.assertColumnLen` otherwise).  Returns the first abort,
or `none` when every index passes. -/
def assert_columns {σ : Type} (tb : TableBuilder σ) (s : σ) (hi : Nat) :
    List Nat → Option Fatal
  | [] => none
  | i :: rest =>
    match tb.dyn_builder s i with
    | none => some (Fatal.unwrapNone i)
    | some len =>
      if len = hi then assert_columns tb s hi rest
      else some (Fatal.assertColumnLen i len hi)

/-- `debug_assert_row_counts` from `traits.rs`: recompute
`(lo, hi) = row_count()`, check every column's builder length against `hi`,
then assert `lo == hi`.  The result is the abort it would raise, or `none`
when all assertions pass.  (The human-readable dump interpolated into the
assertion messages has no observable effect and is not modelled.) -/
def debug_assert_row_counts {σ : Type} (tb : TableBuilder σ) (s : σ) :
    Option Fatal :=
  match assert_columns tb s (tb.row_count s).2 (List.range (tb.column_count s)) with
  | some p => some p
  | none =>
    if (tb.row_count s).1 = (tb.row_count s).2 then none
    else some (Fatal.assertRowCount (tb.row_count s).1 (tb.row_count s).2)

/-- The free function `autocomplete_row` of `traits.rs`, in a debug build
(`cfg(debug_assertions)` enabled, so the call to `debug_assert_row_counts`
after a successful fill is included):

1. `(complete, incomplete) = row_count()`;
2. error `"No incomplete row"` when `complete == incomplete`;
3. evaluate `incomplete - 1` (underflow aborts in a debug build);
4. error `"More than one incomplete row"` when `complete != incomplete - 1`;
5. call the trait method `autocomplete_row(incomplete)`, propagating its
   error with `?`;
6. run `debug_assert_row_counts`, aborting on any failed assertion.

The Rust code binds `(complete, incomplete)` once; `row_count` is modelled
as a pure observation of the state, so the repeated projections below denote
that single bound pair. -/
def autocomplete_row {σ : Type} (tb : TableBuilder σ) (s : σ) : Outcome σ :=
  if (tb.row_count s).1 = (tb.row_count s).2 then
    Outcome.err (ArrowError.computeError noIncompleteRowMsg) s
  else
    match csub (tb.row_count s).2 1 with
    | none => Outcome.fatal Fatal.subUnderflow
    | some im1 =>
      if (tb.row_count s).1 ≠ im1 then
        Outcome.err
          (ArrowError.computeError
            (multipleIncompleteRowsMsg (tb.row_count s).1 (tb.row_count s).2)) s
      else
        match tb.autocomplete_row s (tb.row_count s).2 with
        | Except.error e => Outcome.err e s
        | Except.ok s₁ =>
          match debug_assert_row_counts tb s₁ with
          | some p => Outcome.fatal p
          | none => Outcome.ok s₁

/-- Modelled from the spec (section 3, "Leaf Column Builder" and the
nullability flag of the Schema Descriptor): one direct column of a builder
node — its nullability flag and its append-only buffer of cells, a cell
being a value (`some ()`; the concrete value is irrelevant to alignment) or
a null marker (`none`). -/
structure Column where
  nullable : Bool
  cells : List (Option Unit)
deriving DecidableEq

/-- Modelled from the spec (section 3, Column Builder Tree): one builder node.
`columns` are the node's direct columns in schema order; `enclosing` is the
back-reference to the containing struct builder (`some` for a nested node,
`none` for the root), observed through `as_struct_builder`. -/
structure Model where
  columns : List Column
  enclosing : Option Unit
deriving DecidableEq

/-- The lengths of the node's direct columns, in schema order. -/
def Model.lens (m : Model) : List Nat :=
  m.columns.map (fun c => c.cells.length)

/-- Minimum and maximum of a list of lengths (`(0, 0)` for a node with no
columns). -/
def minmax : List Nat → Nat × Nat
  | [] => (0, 0)
  | x :: xs => (xs.foldl min x, xs.foldl max x)

/-- Modelled from the spec (section 4.2): `row_count()` returns
`(complete, incomplete)` where `complete` is the minimum length among the
node's direct columns and `incomplete` is the maximum. -/
def Model.row_count (m : Model) : Nat × Nat :=
  minmax m.lens

/-- Modelled from the spec (section 4.2): the number of direct columns. -/
def Model.column_count (m : Model) : Nat :=
  m.columns.length

/-- Modelled from the spec (section 4.2, `builder_at`): dynamic access to the
column builder at `index`, projected to its length; absent when the index is
out of range. -/
def Model.dyn_builder (m : Model) (i : Nat) : Option Nat :=
  (m.columns.get? i).map (fun c => c.cells.length)

/-- `true` when the column is one row short of row `n` (its length is
`n - 1`), i.e. it is a column the fill for row `n` must complete. -/
def needsFill (n : Nat) (c : Column) : Bool :=
  c.cells.length + 1 == n

/-- Modelled from the spec (section 4.4, step 4, and section 8
"Non-nullable enforcement"): the generated trait method
`autocomplete_row(n)`.  Every direct column whose length is still `n - 1`
receives a null marker; if any such column is non-nullable the whole fill
fails with `NonNullableColumnIncomplete` and no column is mutated
(all-or-nothing). -/
def Model.autocomplete_row (m : Model) (n : Nat) : Except ArrowError Model :=
  match (List.range m.columns.length).find? (fun j =>
      match m.columns.get? j with
      | some c => needsFill n c && !c.nullable
      | none => false) with
  | some j => Except.error (ArrowError.nonNullableColumnIncomplete j)
  | none =>
    Except.ok
      ⟨m.columns.map (fun c =>
          if needsFill n c then ⟨c.nullable, c.cells ++ [none]⟩ else c),
        m.enclosing⟩

/-- Modelled from the spec (section 6, Batch handoff / Glossary "RowBatch"):
an immutable row-aligned snapshot of the buffered columns. -/
structure RecordBatch where
  num_rows : Nat
  columns : List (List (Option Unit))
deriving DecidableEq

/-- Modelled from the spec (section 4.2): `flush()` requires
`complete == incomplete` and fails with `FlushWithPendingRow` otherwise; on
success it snapshots all buffered rows into a batch and resets the builders
for reuse. -/
def Model.flush (m : Model) : Except ArrowError (RecordBatch × Model) :=
  let c := (Model.row_count m).1
  let i := (Model.row_count m).2
  if c = i then
    Except.ok
      (⟨c, m.columns.map (fun col => col.cells)⟩,
        ⟨m.columns.map (fun col => ⟨col.nullable, []⟩), m.enclosing⟩)
  else Except.error ArrowError.flushWithPendingRow

/-- Modelled from the spec (section 4.2): `as_struct_builder` returns the
enclosing struct builder, `none` for the root builder. -/
def Model.as_struct_builder (m : Model) : Option Unit :=
  m.enclosing

/-- Modelled from the spec (section 4.2, `append_null`): appends a null
marker to every direct column; calling it on the root node (no enclosing
column) is a programming error and aborts with a fatal condition. -/
def Model.append_null (m : Model) : Outcome Model :=
  match Model.as_struct_builder m with
  | none => Outcome.fatal Fatal.appendNullOnRoot
  | some _ =>
    Outcome.ok
      ⟨m.columns.map (fun c => ⟨c.nullable, c.cells ++ [none]⟩), m.enclosing⟩

/-- The spec-modelled builder node packaged as an instance of the trait
record, so the free functions of `traits.rs` can run on it. -/
def modelTB : TableBuilder Model :=
  ⟨Model.row_count, Model.autocomplete_row, Model.column_count,
    Model.dyn_builder⟩

/-- The producer-facing operations, as an inductive reachability relation:
a builder state is reachable "with at most one partial row" when it arises
from a fresh node by appends that only ever extend a column still at the
complete length (the spec's legal per-column append for the current row),
successful autocompletes, and successful flushes. -/
inductive Reachable : Model → Prop
  | init (nb : List Bool) (e : Option Unit) :
      Reachable ⟨nb.map (fun b => ⟨b, []⟩), e⟩
  | append (m : Model) (j : Nat) (v : Option Unit) (col : Column) :
      Reachable m →
      m.columns.get? j = some col →
      col.cells.length = (Model.row_count m).1 →
      Reachable ⟨m.columns.set j ⟨col.nullable, col.cells ++ [v]⟩, m.enclosing⟩
  | autocompleteStep (m m' : Model) :
      Reachable m →
      autocomplete_row modelTB m = Outcome.ok m' →
      Reachable m'
  | flushStep (m m' : Model) (b : RecordBatch) :
      Reachable m →
      Model.flush m = Except.ok (b, m') →
      Reachable m'

/-! ### Helper lemmas about `minmax` -/

theorem foldl_min_le_start (xs : List Nat) : ∀ x : Nat, xs.foldl min x ≤ x := by
  induction xs with
  | nil => intro x; exact Nat.le_refl x
  | cons y ys ih =>
    intro x
    simp only [List.foldl_cons]
    exact Nat.le_trans (ih (min x y)) (Nat.min_le_left x y)

theorem foldl_min_le_mem (xs : List Nat) :
    ∀ x a : Nat, a ∈ xs → xs.foldl min x ≤ a := by
  induction xs with
  | nil => intro x a h; cases h
  | cons y ys ih =>
    intro x a h
    simp only [List.foldl_cons]
    rcases List.mem_cons.mp h with hy | hys
    · subst hy
      exact Nat.le_trans (foldl_min_le_start ys (min x a)) (Nat.min_le_right x a)
    · exact ih (min x y) a hys

theorem foldl_min_mem (xs : List Nat) :
    ∀ x : Nat, xs.foldl min x = x ∨ xs.foldl min x ∈ xs := by
  induction xs with
  | nil => intro x; exact Or.inl rfl
  | cons y ys ih =>
    intro x
    simp only [List.foldl_cons]
    rcases ih (min x y) with h | h
    · rcases min_choice x y with hm | hm
      · exact Or.inl (h.trans hm)
      · exact Or.inr (by rw [h.trans hm]; exact List.mem_cons_self y ys)
    · exact Or.inr (List.mem_cons_of_mem y h)

theorem le_foldl_max_start (xs : List Nat) : ∀ x : Nat, x ≤ xs.foldl max x := by
  induction xs with
  | nil => intro x; exact Nat.le_refl x
  | cons y ys ih =>
    intro x
    simp only [List.foldl_cons]
    exact Nat.le_trans (Nat.le_max_left x y) (ih (max x y))

theorem le_foldl_max_mem (xs : List Nat) :
    ∀ x a : Nat, a ∈ xs → a ≤ xs.foldl max x := by
  induction xs with
  | nil => intro x a h; cases h
  | cons y ys ih =>
    intro x a h
    simp only [List.foldl_cons]
    rcases List.mem_cons.mp h with hy | hys
    · subst hy
      exact Nat.le_trans (Nat.le_max_right x a) (le_foldl_max_start ys (max x a))
    · exact ih (max x y) a hys

theorem foldl_max_mem (xs : List Nat) :
    ∀ x : Nat, xs.foldl max x = x ∨ xs.foldl max x ∈ xs := by
  induction xs with
  | nil => intro x; exact Or.inl rfl
  | cons y ys ih =>
    intro x
    simp only [List.foldl_cons]
    rcases ih (max x y) with h | h
    · rcases max_choice x y with hm | hm
      · exact Or.inl (h.trans hm)
      · exact Or.inr (by rw [h.trans hm]; exact List.mem_cons_self y ys)
    · exact Or.inr (List.mem_cons_of_mem y h)

theorem minmax_fst_le {l : List Nat} {a : Nat} (h : a ∈ l) : (minmax l).1 ≤ a := by
  cases l with
  | nil => cases h
  | cons x xs =>
    simp only [minmax]
    rcases List.mem_cons.mp h with hx | hxs
    · subst hx; exact foldl_min_le_start xs a
    · exact foldl_min_le_mem xs x a hxs

theorem le_minmax_snd {l : List Nat} {a : Nat} (h : a ∈ l) : a ≤ (minmax l).2 := by
  cases l with
  | nil => cases h
  | cons x xs =>
    simp only [minmax]
    rcases List.mem_cons.mp h with hx | hxs
    · subst hx; exact le_foldl_max_start xs a
    · exact le_foldl_max_mem xs x a hxs

theorem minmax_fst_mem {l : List Nat} (h : l ≠ []) : (minmax l).1 ∈ l := by
  cases l with
  | nil => exact absurd rfl h
  | cons x xs =>
    simp only [minmax]
    rcases foldl_min_mem xs x with h1 | h1
    · rw [h1]; exact List.mem_cons_self x xs
    · exact List.mem_cons_of_mem x h1

theorem minmax_snd_mem {l : List Nat} (h : l ≠ []) : (minmax l).2 ∈ l := by
  cases l with
  | nil => exact absurd rfl h
  | cons x xs =>
    simp only [minmax]
    rcases foldl_max_mem xs x with h1 | h1
    · rw [h1]; exact List.mem_cons_self x xs
    · exact List.mem_cons_of_mem x h1

theorem minmax_const {l : List Nat} {n : Nat} (hne : l ≠ [])
    (h : ∀ a ∈ l, a = n) : minmax l = (n, n) := by
  have h1 : (minmax l).1 = n := h _ (minmax_fst_mem hne)
  have h2 : (minmax l).2 = n := h _ (minmax_snd_mem hne)
  calc minmax l = ((minmax l).1, (minmax l).2) := rfl
  _ = (n, n) := by rw [h1, h2]

theorem minmax_all_zero {l : List Nat} (h : ∀ a ∈ l, a = 0) :
    minmax l = (0, 0) := by
  cases l with
  | nil => rfl
  | cons x xs => exact minmax_const (List.cons_ne_nil x xs) h

/-! ### Helper lemmas about the debug verification pass -/

theorem assert_columns_eq_none {σ : Type} (tb : TableBuilder σ) (s : σ) (hi : Nat) :
    ∀ l : List Nat,
      assert_columns tb s hi l = none ↔ ∀ j ∈ l, tb.dyn_builder s j = some hi := by
  intro l
  induction l with
  | nil => simp [assert_columns]
  | cons i rest ih =>
    simp only [assert_columns]
    cases hdb : tb.dyn_builder s i with
    | none =>
      simp only [List.mem_cons]
      constructor
      · intro h; cases h
      · intro h
        have := h i (Or.inl rfl)
        rw [hdb] at this
        cases this
    | some len =>
      dsimp only
      by_cases hlen : len = hi
      · subst hlen
        rw [if_pos rfl]
        simp only [List.mem_cons, ih]
        constructor
        · intro h j hj
          rcases hj with hj | hj
          · subst hj; exact hdb
          · exact h j hj
        · intro h j hj; exact h j (Or.inr hj)
      · rw [if_neg hlen]
        constructor
        · intro h; cases h
        · intro h
          have := h i (List.mem_cons_self i rest)
          rw [hdb] at this
          exact absurd (Option.some.inj this) hlen

theorem assert_columns_some_shape {σ : Type} (tb : TableBuilder σ) (s : σ)
    (hi : Nat) :
    ∀ (l : List Nat) (p : Fatal), assert_columns tb s hi l = some p →
      (∃ j, p = Fatal.unwrapNone j) ∨ ∃ a b c, p = Fatal.assertColumnLen a b c := by
  intro l
  induction l with
  | nil => intro p h; cases h
  | cons i rest ih =>
    intro p h
    simp only [assert_columns] at h
    cases hdb : tb.dyn_builder s i with
    | none =>
      rw [hdb] at h
      exact Or.inl ⟨i, (Option.some.inj h).symm⟩
    | some len =>
      rw [hdb] at h
      dsimp only at h
      by_cases hlen : len = hi
      · rw [if_pos hlen] at h; exact ih p h
      · rw [if_neg hlen] at h
        exact Or.inr ⟨i, len, hi, (Option.some.inj h).symm⟩

theorem assert_columns_unwrap {σ : Type} (tb : TableBuilder σ) (s : σ)
    (hi i : Nat) :
    ∀ l₁ l₂ : List Nat, (∀ j ∈ l₁, tb.dyn_builder s j = some hi) →
      tb.dyn_builder s i = none →
      assert_columns tb s hi (l₁ ++ i :: l₂) = some (Fatal.unwrapNone i) := by
  intro l₁
  induction l₁ with
  | nil =>
    intro l₂ _ hnone
    simp only [List.nil_append, assert_columns, hnone]
  | cons k ks ih =>
    intro l₂ hall hnone
    have hk : tb.dyn_builder s k = some hi := hall k (List.mem_cons_self k ks)
    simp only [List.cons_append, assert_columns, hk, if_pos]
    exact ih l₂ (fun j hj => hall j (List.mem_cons_of_mem k hj)) hnone

theorem debug_assert_row_counts_eq_none {σ : Type} (tb : TableBuilder σ)
    (s : σ) :
    debug_assert_row_counts tb s = none ↔
      (∀ j, j < tb.column_count s → tb.dyn_builder s j = some (tb.row_count s).2) ∧
        (tb.row_count s).1 = (tb.row_count s).2 := by
  unfold debug_assert_row_counts
  cases hac : assert_columns tb s (tb.row_count s).2
      (List.range (tb.column_count s)) with
  | some p =>
    constructor
    · intro h; cases h
    · intro ⟨h1, _⟩
      have hnone : assert_columns tb s (tb.row_count s).2
          (List.range (tb.column_count s)) = none :=
        (assert_columns_eq_none tb s (tb.row_count s).2 _).mpr
          (fun j hj => h1 j (List.mem_range.mp hj))
      rw [hnone] at hac
      cases hac
  | none =>
    by_cases hlo : (tb.row_count s).1 = (tb.row_count s).2
    · rw [if_pos hlo]
      constructor
      · intro _
        refine ⟨fun j hj => ?_, hlo⟩
        exact (assert_columns_eq_none tb s (tb.row_count s).2 _).mp hac j
          (List.mem_range.mpr hj)
      · intro _; rfl
    · rw [if_neg hlo]
      constructor
      · intro h; cases h
      · intro ⟨_, h2⟩; exact absurd h2 hlo

theorem debug_assert_row_counts_ne_underflow {σ : Type} (tb : TableBuilder σ)
    (s : σ) (p : Fatal) (h : debug_assert_row_counts tb s = some p) :
    p ≠ Fatal.subUnderflow := by
  unfold debug_assert_row_counts at h
  cases hac : assert_columns tb s (tb.row_count s).2
      (List.range (tb.column_count s)) with
  | some q =>
    rw [hac] at h
    have hq := assert_columns_some_shape tb s (tb.row_count s).2 _ q hac
    rw [Option.some.inj h] at hq
    rcases hq with ⟨j, hj⟩ | ⟨a, b, c, habc⟩
    · subst hj; intro hcon; cases hcon
    · subst habc; intro hcon; cases hcon
  | none =>
    rw [hac] at h
    by_cases hlo : (tb.row_count s).1 = (tb.row_count s).2
    · rw [if_pos hlo] at h; cases h
    · rw [if_neg hlo] at h
      rw [← Option.some.inj h]
      intro hcon; cases hcon

theorem autocomplete_row_eq_ok {σ : Type} (tb : TableBuilder σ) (s s₁ : σ)
    (h : autocomplete_row tb s = Outcome.ok s₁) :
    tb.autocomplete_row s (tb.row_count s).2 = Except.ok s₁ ∧
      debug_assert_row_counts tb s₁ = none := by
  unfold autocomplete_row at h
  by_cases h1 : (tb.row_count s).1 = (tb.row_count s).2
  · rw [if_pos h1] at h; cases h
  · rw [if_neg h1] at h
    cases hc : csub (tb.row_count s).2 1 with
    | none => rw [hc] at h; cases h
    | some im1 =>
      rw [hc] at h
      dsimp only at h
      by_cases h2 : (tb.row_count s).1 ≠ im1
      · rw [if_pos h2] at h; cases h
      · rw [if_neg h2] at h
        cases hm : tb.autocomplete_row s (tb.row_count s).2 with
        | error e => rw [hm] at h; cases h
        | ok s₂ =>
          rw [hm] at h
          dsimp only at h
          cases hd : debug_assert_row_counts tb s₂ with
          | some p => rw [hd] at h; cases h
          | none =>
            rw [hd] at h
            cases h
            exact ⟨rfl, hd⟩

/-! ### Helper lemmas about the modelled builder node -/

theorem Model.dyn_builder_eq_get? (m : Model) (j : Nat) :
    Model.dyn_builder m j = m.lens.get? j := by
  simp [Model.dyn_builder, Model.lens]

theorem Model.lens_length (m : Model) : m.lens.length = m.columns.length := by
  simp [Model.lens]

theorem Model.lens_bounds {m : Model} {a : Nat} (ha : a ∈ m.lens) :
    (Model.row_count m).1 ≤ a ∧ a ≤ (Model.row_count m).2 :=
  ⟨minmax_fst_le ha, le_minmax_snd ha⟩

theorem Model.columns_ne_nil {m : Model} {c i : Nat}
    (h : Model.row_count m = (c, i)) (hne : c ≠ i) : m.columns ≠ [] := by
  intro hnil
  have hl : m.lens = [] := by simp [Model.lens, hnil]
  have h0 : (0, 0) = (c, i) := by
    rw [← h]
    simp [Model.row_count, hl, minmax]
  cases h0
  exact hne rfl

theorem modelTB_debug_none_all_eq {m : Model}
    (hd : debug_assert_row_counts modelTB m = none) :
    ∀ a ∈ m.lens, a = (Model.row_count m).2 := by
  obtain ⟨h1, _⟩ := (debug_assert_row_counts_eq_none modelTB m).mp hd
  intro a ha
  obtain ⟨j, hj⟩ := List.mem_iff_get?.mp ha
  obtain ⟨hlt, _⟩ := List.get?_eq_some.mp hj
  have hjc : j < Model.column_count m := by
    rw [Model.column_count, ← Model.lens_length]; exact hlt
  have hdyn : Model.dyn_builder m j = some (Model.row_count m).2 := h1 j hjc
  rw [Model.dyn_builder_eq_get? m j, hj] at hdyn
  exact Option.some.inj hdyn

theorem modelTB_ok_all_eq {m m' : Model}
    (h : autocomplete_row modelTB m = Outcome.ok m') :
    ∀ a ∈ m'.lens, a = (Model.row_count m').2 := by
  obtain ⟨_, hd⟩ := autocomplete_row_eq_ok modelTB m m' h
  exact modelTB_debug_none_all_eq hd

/-- The fill as the spec's step 4 words it: append one null marker to exactly
those direct columns whose current length is still `complete`, leaving every
other column (and the node's enclosing reference) untouched.  Used to compare
the modelled trait method against the claim's description. -/
def fillTrailingRow (m : Model) (complete : Nat) : Model :=
  ⟨m.columns.map (fun col =>
      if col.cells.length = complete then ⟨col.nullable, col.cells ++ [none]⟩
      else col),
    m.enclosing⟩

theorem Model.autocomplete_eq_fill {m : Model} {c : Nat}
    (hnul : ∀ col ∈ m.columns, col.cells.length = c → col.nullable = true) :
    Model.autocomplete_row m (c + 1) = Except.ok (fillTrailingRow m c) := by
  unfold Model.autocomplete_row fillTrailingRow
  have hfind : (List.range m.columns.length).find? (fun j =>
      match m.columns.get? j with
      | some col => needsFill (c + 1) col && !col.nullable
      | none => false) = none := by
    rw [List.find?_eq_none]
    intro j _
    cases hc : m.columns.get? j with
    | none => simp
    | some col =>
      simp only
      intro hcon
      obtain ⟨hf, hnn⟩ := Bool.and_eq_true_iff.mp hcon
      have hlen : col.cells.length = c := by
        have hb := (Nat.beq_eq_true_eq (col.cells.length + 1) (c + 1)).mp hf
        omega
      have hnc := hnul col (List.get?_mem hc) hlen
      rw [hnc] at hnn
      cases hnn
  rw [hfind]
  dsimp only
  refine congrArg Except.ok ?_
  refine congrArg (fun l => Model.mk l m.enclosing) ?_
  apply List.map_congr_left
  intro col _
  by_cases hlen : col.cells.length = c
  · simp [needsFill, hlen]
  · simp [needsFill, Nat.add_right_cancel_iff, hlen]

theorem fillTrailingRow_lens {m : Model} {c : Nat}
    (hb : ∀ a ∈ m.lens, c ≤ a ∧ a ≤ c + 1) :
    ∀ a ∈ (fillTrailingRow m c).lens, a = c + 1 := by
  intro a ha
  simp only [fillTrailingRow, Model.lens, List.map_map, List.mem_map,
    Function.comp] at ha
  obtain ⟨col, hcol, hlen⟩ := ha
  by_cases hc : col.cells.length = c
  · rw [← hlen]; simp [hc]
  · have hbb := hb col.cells.length
      (List.mem_map_of_mem (fun col => col.cells.length) hcol)
    have hc1 : col.cells.length = c + 1 := by omega
    rw [← hlen]; simp [hc, hc1]

theorem fillTrailingRow_ne_nil {m : Model} {c : Nat} (hne : m.columns ≠ []) :
    (fillTrailingRow m c).lens ≠ [] := by
  intro hnil
  rw [Model.lens] at hnil
  have h1 : (fillTrailingRow m c).columns = [] := List.map_eq_nil_iff.mp hnil
  rw [fillTrailingRow] at h1
  exact hne (List.map_eq_nil_iff.mp h1)

theorem fillTrailingRow_row_count {m : Model} {c : Nat}
    (hne : m.columns ≠ [])
    (hb : ∀ a ∈ m.lens, c ≤ a ∧ a ≤ c + 1) :
    Model.row_count (fillTrailingRow m c) = (c + 1, c + 1) := by
  show minmax (fillTrailingRow m c).lens = (c + 1, c + 1)
  exact minmax_const (fillTrailingRow_ne_nil hne) (fillTrailingRow_lens hb)

theorem modelTB_row_count : modelTB.row_count = Model.row_count := rfl

theorem modelTB_autocomplete : modelTB.autocomplete_row = Model.autocomplete_row := rfl

theorem modelTB_column_count : modelTB.column_count = Model.column_count := rfl

theorem modelTB_dyn_builder : modelTB.dyn_builder = Model.dyn_builder := rfl

theorem modelTB_debug_none_of_all_eq {m : Model} {n : Nat}
    (hrc : Model.row_count m = (n, n))
    (hall : ∀ a ∈ m.lens, a = n) :
    debug_assert_row_counts modelTB m = none := by
  rw [debug_assert_row_counts_eq_none]
  simp only [modelTB_row_count, modelTB_column_count, modelTB_dyn_builder]
  rw [hrc]
  refine ⟨fun j hj => ?_, rfl⟩
  rw [Model.dyn_builder_eq_get?]
  have hjl : j < m.lens.length := by
    rw [Model.lens_length]; exact hj
  rw [List.get?_eq_get hjl]
  rw [hall _ (List.get_mem m.lens j hjl)]

/-- Claim C1: when `row_count()` returns `(complete, incomplete)` with
`complete == incomplete - 1`, the free `autocomplete_row` entry point invokes
the recursive fill for the single trailing short row (the row the trait call
`autocomplete_row(incomplete)` designates, zero-based index `incomplete - 1`),
and the fill appends a null marker to exactly those direct columns whose
current length is still `complete`, leaving all other columns unchanged.
(Nullability of every short column is assumed so the fill itself succeeds.) -/
theorem c1_autocomplete_fills_single_trailing_row {m : Model} {c i : Nat}
    (hrc : Model.row_count m = (c, i)) (hinc : c + 1 = i)
    (hnul : ∀ col ∈ m.columns, col.cells.length = c → col.nullable = true) :
    autocomplete_row modelTB m = Outcome.ok (fillTrailingRow m c) := by
  subst hinc
  have hne : m.columns ≠ [] := Model.columns_ne_nil hrc (by omega)
  have hb : ∀ a ∈ m.lens, c ≤ a ∧ a ≤ c + 1 := by
    intro a ha
    have hab := Model.lens_bounds ha
    rw [hrc] at hab
    exact hab
  unfold autocomplete_row
  simp only [modelTB_row_count, modelTB_autocomplete]
  rw [hrc]
  dsimp only
  rw [if_neg (by omega : ¬ c = c + 1)]
  rw [show csub (c + 1) 1 = some c from by simp [csub]]
  dsimp only
  rw [if_neg (fun h => h rfl : ¬ c ≠ c)]
  rw [Model.autocomplete_eq_fill hnul]
  dsimp only
  rw [show debug_assert_row_counts modelTB (fillTrailingRow m c) = none from
    modelTB_debug_none_of_all_eq (fillTrailingRow_row_count hne hb)
      (fillTrailingRow_lens hb)]

/-- Witness for C1 at a concrete two-column node: column 0 (nullable) still at
length 0, column 1 at length 1. -/
theorem c1_witness :
    Model.row_count ⟨[⟨true, []⟩, ⟨false, [some ()]⟩], none⟩ = (0, 1) ∧
      autocomplete_row modelTB ⟨[⟨true, []⟩, ⟨false, [some ()]⟩], none⟩ =
        Outcome.ok (fillTrailingRow ⟨[⟨true, []⟩, ⟨false, [some ()]⟩], none⟩ 0) :=
  ⟨rfl, c1_autocomplete_fills_single_trailing_row rfl rfl (by decide)⟩

/-- Claim C2: whenever `row_count()` returns `(complete, incomplete)` with
`complete < incomplete` and `complete != incomplete - 1`, the free
`autocomplete_row` returns the "More than one incomplete row" compute error
and hands the builder back in exactly the state it received it (the trait
fill method is never invoked). -/
theorem c2_multiple_incomplete_rows_error {σ : Type} (tb : TableBuilder σ)
    (s : σ) (c i : Nat) (hrc : tb.row_count s = (c, i)) (hlt : c < i)
    (hne : c ≠ i - 1) :
    autocomplete_row tb s =
      Outcome.err (ArrowError.computeError (multipleIncompleteRowsMsg c i)) s := by
  unfold autocomplete_row
  rw [hrc]
  dsimp only
  rw [if_neg (by omega : ¬ c = i)]
  rw [show csub i 1 = some (i - 1) from by
    unfold csub; rw [if_pos (show 1 ≤ i by omega)]]
  dsimp only
  rw [if_pos hne]

/-- Witness for C2: a node whose two columns are at lengths 0 and 2, spanning
more than one row gap. -/
theorem c2_witness :
    Model.row_count ⟨[⟨true, []⟩, ⟨true, [some (), some ()]⟩], none⟩ = (0, 2) ∧
      autocomplete_row modelTB ⟨[⟨true, []⟩, ⟨true, [some (), some ()]⟩], none⟩ =
        Outcome.err (ArrowError.computeError (multipleIncompleteRowsMsg 0 2))
          ⟨[⟨true, []⟩, ⟨true, [some (), some ()]⟩], none⟩ :=
  ⟨rfl,
    c2_multiple_incomplete_rows_error modelTB _ 0 2 rfl (by decide) (by decide)⟩

/-- Claim C3: whenever `row_count()` returns equal components, the free
`autocomplete_row` returns the "No incomplete row" compute error with the
builder state untouched; the error is the function's return value (surfaced
to the caller, no internal retry). -/
theorem c3_no_incomplete_row_error {σ : Type} (tb : TableBuilder σ) (s : σ)
    (n : Nat) (hrc : tb.row_count s = (n, n)) :
    autocomplete_row tb s =
      Outcome.err (ArrowError.computeError noIncompleteRowMsg) s := by
  unfold autocomplete_row
  rw [hrc]
  dsimp only
  rw [if_pos rfl]

/-- Witness for C3: an aligned node with both columns at length 1. -/
theorem c3_witness :
    Model.row_count ⟨[⟨true, [some ()]⟩, ⟨true, [none]⟩], none⟩ = (1, 1) ∧
      autocomplete_row modelTB ⟨[⟨true, [some ()]⟩, ⟨true, [none]⟩], none⟩ =
        Outcome.err (ArrowError.computeError noIncompleteRowMsg)
          ⟨[⟨true, [some ()]⟩, ⟨true, [none]⟩], none⟩ :=
  ⟨rfl, c3_no_incomplete_row_error modelTB _ 1 rfl⟩

/-- Claim C8: `append_null` on the root builder node (the one whose
`as_struct_builder` is `none`) always aborts with the fatal
`appendNullOnRoot` condition — it neither returns an error nor appends to
any column. -/
theorem c8_append_null_root_fatal (m : Model)
    (h : Model.as_struct_builder m = none) :
    Model.append_null m = Outcome.fatal Fatal.appendNullOnRoot := by
  unfold Model.append_null
  rw [h]

/-- Witness for C8: a one-column root node. -/
theorem c8_witness :
    Model.as_struct_builder ⟨[⟨true, []⟩], none⟩ = none ∧
      Model.append_null ⟨[⟨true, []⟩], none⟩ =
        Outcome.fatal Fatal.appendNullOnRoot :=
  ⟨rfl, c8_append_null_root_fatal _ rfl⟩

/-- Claim C9: under the `row_count` contract `complete ≤ incomplete`, the
subtraction `incomplete - 1` in the free `autocomplete_row` never underflows:
when `incomplete = 0` the first guard has already returned the
"no incomplete row" error, so the `subUnderflow` abort is unreachable. -/
theorem c9_no_underflow {σ : Type} (tb : TableBuilder σ) (s : σ)
    (h : (tb.row_count s).1 ≤ (tb.row_count s).2) :
    autocomplete_row tb s ≠ Outcome.fatal Fatal.subUnderflow := by
  unfold autocomplete_row
  by_cases h1 : (tb.row_count s).1 = (tb.row_count s).2
  · rw [if_pos h1]; intro hcon; cases hcon
  · rw [if_neg h1]
    have hi : 1 ≤ (tb.row_count s).2 := by omega
    rw [show csub (tb.row_count s).2 1 = some ((tb.row_count s).2 - 1) from by
      unfold csub; rw [if_pos hi]]
    dsimp only
    by_cases h2 : (tb.row_count s).1 ≠ (tb.row_count s).2 - 1
    · rw [if_pos h2]; intro hcon; cases hcon
    · rw [if_neg h2]
      cases hm : tb.autocomplete_row s (tb.row_count s).2 with
      | error e => dsimp only; intro hcon; cases hcon
      | ok s₁ =>
        dsimp only
        cases hd : debug_assert_row_counts tb s₁ with
        | some p =>
          dsimp only
          intro hcon
          have hp := debug_assert_row_counts_ne_underflow tb s₁ p hd
          cases hcon
          exact hp rfl
        | none => dsimp only; intro hcon; cases hcon

/-- Witness for C9: a node with column lengths 0 and 1 satisfies the
`row_count` contract and the entry point does not abort on the subtraction. -/
theorem c9_witness :
    (modelTB.row_count ⟨[⟨true, []⟩, ⟨true, [some ()]⟩], none⟩).1 ≤
        (modelTB.row_count ⟨[⟨true, []⟩, ⟨true, [some ()]⟩], none⟩).2 ∧
      autocomplete_row modelTB ⟨[⟨true, []⟩, ⟨true, [some ()]⟩], none⟩ ≠
        Outcome.fatal Fatal.subUnderflow :=
  ⟨by decide, c9_no_underflow modelTB _ (by decide)⟩

/-- Claim C5: in a state with exactly one incomplete row where some
never-written column (length still `complete`) is marked non-nullable, the
autocomplete entry point fails with `NonNullableColumnIncomplete` and the
builder state it hands back is exactly the input state — no column was
mutated (the fill is all-or-nothing). -/
theorem c5_non_nullable_incomplete_error {m : Model} {c i : Nat}
    (hrc : Model.row_count m = (c, i)) (hinc : c + 1 = i)
    (hnn : ∃ j col, m.columns.get? j = some col ∧ col.cells.length = c ∧
        col.nullable = false) :
    ∃ j, autocomplete_row modelTB m =
        Outcome.err (ArrowError.nonNullableColumnIncomplete j) m := by
  subst hinc
  obtain ⟨j, col, hget, hlen, hcol⟩ := hnn
  have hfs : ((List.range m.columns.length).find? (fun k =>
      match m.columns.get? k with
      | some col => needsFill (c + 1) col && !col.nullable
      | none => false)).isSome := by
    rw [List.find?_isSome]
    refine ⟨j, List.mem_range.mpr (List.get?_eq_some.mp hget).1, ?_⟩
    simp only [hget]
    simp [needsFill, hlen, hcol]
  obtain ⟨p, hp⟩ := Option.isSome_iff_exists.mp hfs
  refine ⟨p, ?_⟩
  unfold autocomplete_row
  simp only [modelTB_row_count, modelTB_autocomplete]
  rw [hrc]
  dsimp only
  rw [if_neg (by omega : ¬ c = c + 1)]
  rw [show csub (c + 1) 1 = some c from by unfold csub; simp]
  dsimp only
  rw [if_neg (fun h => h rfl : ¬ c ≠ c)]
  have htrait : Model.autocomplete_row m (c + 1) =
      Except.error (ArrowError.nonNullableColumnIncomplete p) := by
    unfold Model.autocomplete_row
    rw [hp]
  rw [htrait]

/-- Witness for C5: the non-nullable column 0 was never written on the
pending row. -/
theorem c5_witness :
    Model.row_count ⟨[⟨false, []⟩, ⟨true, [some ()]⟩], none⟩ = (0, 1) ∧
      ∃ j, autocomplete_row modelTB ⟨[⟨false, []⟩, ⟨true, [some ()]⟩], none⟩ =
          Outcome.err (ArrowError.nonNullableColumnIncomplete j)
            ⟨[⟨false, []⟩, ⟨true, [some ()]⟩], none⟩ :=
  ⟨rfl, c5_non_nullable_incomplete_error rfl rfl
    ⟨0, ⟨false, []⟩, rfl, rfl, rfl⟩⟩

/-- Claim C6: in a debug build, once the fill step of the free
`autocomplete_row` has returned successfully, the re-validation pass
(`debug_assert_row_counts`) decides the outcome: if it passes, the entry
point returns `ok`; any mismatch aborts with a fatal assertion, which is a
different outcome constructor from the ordinary validation errors returned
earlier.  The pass passes exactly when every direct column's builder length
equals the `incomplete` component reported by `row_count()` and
`row_count()` reports `complete == incomplete`. -/
theorem c6_debug_revalidation {σ : Type} (tb : TableBuilder σ) (s s₁ : σ)
    (c i : Nat) (hrc : tb.row_count s = (c, i)) (hinc : c + 1 = i)
    (hfill : tb.autocomplete_row s i = Except.ok s₁) :
    (debug_assert_row_counts tb s₁ = none →
        autocomplete_row tb s = Outcome.ok s₁) ∧
      (∀ p, debug_assert_row_counts tb s₁ = some p →
        autocomplete_row tb s = Outcome.fatal p ∧
          ∀ (e : ArrowError) (t : σ),
            (Outcome.fatal p : Outcome σ) ≠ Outcome.err e t) ∧
      (debug_assert_row_counts tb s₁ = none ↔
        (∀ j, j < tb.column_count s₁ →
            tb.dyn_builder s₁ j = some (tb.row_count s₁).2) ∧
          (tb.row_count s₁).1 = (tb.row_count s₁).2) := by
  subst hinc
  have hred : autocomplete_row tb s =
      (match debug_assert_row_counts tb s₁ with
       | some p => Outcome.fatal p
       | none => Outcome.ok s₁) := by
    unfold autocomplete_row
    rw [hrc]
    dsimp only
    rw [if_neg (by omega : ¬ c = c + 1)]
    rw [show csub (c + 1) 1 = some c from by unfold csub; simp]
    dsimp only
    rw [if_neg (fun h => h rfl : ¬ c ≠ c)]
    rw [hfill]
  refine ⟨?_, ?_, debug_assert_row_counts_eq_none tb s₁⟩
  · intro hd
    rw [hred, hd]
  · intro p hd
    refine ⟨by rw [hred, hd], ?_⟩
    intro e t hcon
    cases hcon

/-- Witness for C6 at a concrete two-column node whose fill succeeds and
whose re-validation passes. -/
theorem c6_witness :
    (debug_assert_row_counts modelTB ⟨[⟨true, [none]⟩, ⟨true, [some ()]⟩], none⟩ =
          none →
        autocomplete_row modelTB ⟨[⟨true, []⟩, ⟨true, [some ()]⟩], none⟩ =
          Outcome.ok ⟨[⟨true, [none]⟩, ⟨true, [some ()]⟩], none⟩) ∧
      (∀ p, debug_assert_row_counts modelTB
            ⟨[⟨true, [none]⟩, ⟨true, [some ()]⟩], none⟩ = some p →
        autocomplete_row modelTB ⟨[⟨true, []⟩, ⟨true, [some ()]⟩], none⟩ =
            Outcome.fatal p ∧
          ∀ (e : ArrowError) (t : Model),
            (Outcome.fatal p : Outcome Model) ≠ Outcome.err e t) ∧
      (debug_assert_row_counts modelTB
            ⟨[⟨true, [none]⟩, ⟨true, [some ()]⟩], none⟩ = none ↔
        (∀ j, j < modelTB.column_count ⟨[⟨true, [none]⟩, ⟨true, [some ()]⟩], none⟩ →
            modelTB.dyn_builder ⟨[⟨true, [none]⟩, ⟨true, [some ()]⟩], none⟩ j =
              some (modelTB.row_count
                ⟨[⟨true, [none]⟩, ⟨true, [some ()]⟩], none⟩).2) ∧
          (modelTB.row_count ⟨[⟨true, [none]⟩, ⟨true, [some ()]⟩], none⟩).1 =
            (modelTB.row_count ⟨[⟨true, [none]⟩, ⟨true, [some ()]⟩], none⟩).2) :=
  c6_debug_revalidation modelTB ⟨[⟨true, []⟩, ⟨true, [some ()]⟩], none⟩
    ⟨[⟨true, [none]⟩, ⟨true, [some ()]⟩], none⟩ 0 1 rfl rfl rfl

/-- Claim C7: flushing an aligned node succeeds, and flushing again with no
intervening writes also succeeds and yields an empty batch (zero rows, every
column snapshot empty) rather than an error. -/
theorem c7_flush_idempotent (m : Model) (n : Nat)
    (hrc : Model.row_count m = (n, n)) :
    ∃ b₁ m₁ b₂ m₂,
      Model.flush m = Except.ok (b₁, m₁) ∧ b₁.num_rows = n ∧
        Model.flush m₁ = Except.ok (b₂, m₂) ∧ b₂.num_rows = 0 ∧
          ∀ colData ∈ b₂.columns, colData = [] := by
  have h1 : Model.flush m =
      Except.ok (⟨n, m.columns.map (fun col => col.cells)⟩,
        ⟨m.columns.map (fun col => ⟨col.nullable, []⟩), m.enclosing⟩) := by
    unfold Model.flush
    rw [hrc]
    dsimp only
    rw [if_pos rfl]
  have hlens : ∀ a ∈ (Model.mk (m.columns.map (fun col => ⟨col.nullable, []⟩))
      m.enclosing).lens, a = 0 := by
    intro a ha
    simp only [Model.lens, List.map_map, List.mem_map, Function.comp] at ha
    obtain ⟨col, _, hlen⟩ := ha
    simpa using hlen.symm
  have hrc1 : Model.row_count
      ⟨m.columns.map (fun col => ⟨col.nullable, []⟩), m.enclosing⟩ = (0, 0) := by
    show minmax _ = (0, 0)
    exact minmax_all_zero hlens
  have h2 : Model.flush
      ⟨m.columns.map (fun col => ⟨col.nullable, []⟩), m.enclosing⟩ =
      Except.ok
        (⟨0, (m.columns.map (fun col => (⟨col.nullable, []⟩ : Column))).map
            (fun col => col.cells)⟩,
          ⟨(m.columns.map (fun col => (⟨col.nullable, []⟩ : Column))).map
              (fun col => ⟨col.nullable, []⟩), m.enclosing⟩) := by
    unfold Model.flush
    rw [hrc1]
    dsimp only
    rw [if_pos rfl]
  refine ⟨_, _, _, _, h1, rfl, h2, rfl, ?_⟩
  intro colData hcd
  simp only [List.map_map, List.mem_map, Function.comp] at hcd
  obtain ⟨col, _, hc⟩ := hcd
  simpa using hc.symm

/-- Witness for C7: an aligned node buffering one complete row. -/
theorem c7_witness :
    Model.row_count ⟨[⟨true, [some ()]⟩, ⟨false, [none]⟩], none⟩ = (1, 1) ∧
      ∃ b₁ m₁ b₂ m₂,
        Model.flush ⟨[⟨true, [some ()]⟩, ⟨false, [none]⟩], none⟩ =
            Except.ok (b₁, m₁) ∧ b₁.num_rows = 1 ∧
          Model.flush m₁ = Except.ok (b₂, m₂) ∧ b₂.num_rows = 0 ∧
            ∀ colData ∈ b₂.columns, colData = [] :=
  ⟨rfl, c7_flush_idempotent ⟨[⟨true, [some ()]⟩, ⟨false, [none]⟩], none⟩ 1 rfl⟩

/-- Claim C10: `debug_assert_row_counts` unwraps `dyn_builder(i)` for every
index below `column_count()`; if `dyn_builder` yields `None` at an in-range
index (all earlier indices passing their length check), the verification
aborts on the unwrap (`Fatal.unwrapNone`), not with a row-count mismatch
assertion. -/
theorem c10_debug_unwrap_none {σ : Type} (tb : TableBuilder σ) (s : σ)
    (i : Nat) (hlt : i < tb.column_count s)
    (hnone : tb.dyn_builder s i = none)
    (hprev : ∀ j, j < i → tb.dyn_builder s j = some (tb.row_count s).2) :
    debug_assert_row_counts tb s = some (Fatal.unwrapNone i) := by
  unfold debug_assert_row_counts
  have hcc : tb.column_count s = i + (tb.column_count s - i - 1 + 1) := by omega
  have hsplit : List.range (tb.column_count s) =
      List.range i ++ i :: ((List.range (tb.column_count s - i - 1)).map
        (fun k => i + Nat.succ k)) := by
    conv_lhs => rw [hcc]
    rw [List.range_add, List.range_succ_eq_map]
    simp [List.map_cons, List.map_map, Function.comp]
  rw [hsplit]
  rw [assert_columns_unwrap tb s (tb.row_count s).2 i (List.range i) _
    (fun j hj => hprev j (List.mem_range.mp hj)) hnone]

/-- A degenerate trait instance used only to exercise the unwrap path: it
reports one column but its `dyn_builder` returns `none` for every index. -/
def brokenTB : TableBuilder Unit :=
  ⟨fun _ => (0, 0), fun s _ => Except.ok s, fun _ => 1, fun _ _ => none⟩

/-- Witness for C10: the degenerate instance makes the debug verification
abort on the unwrap at index 0. -/
theorem c10_witness :
    0 < brokenTB.column_count () ∧ brokenTB.dyn_builder () 0 = none ∧
      debug_assert_row_counts brokenTB () = some (Fatal.unwrapNone 0) :=
  ⟨by decide, rfl,
    c10_debug_unwrap_none brokenTB () 0 (by decide) rfl
      (fun j hj => absurd hj (Nat.not_lt_zero j))⟩

theorem reachable_spread {m : Model} (h : Reachable m) :
    ∀ a ∈ m.lens, ∀ b ∈ m.lens, a ≤ b + 1 := by
  induction h with
  | init nb e =>
    intro a ha b hb
    simp only [Model.lens, List.map_map, List.mem_map, Function.comp] at ha
    obtain ⟨x, _, hx⟩ := ha
    simp only [List.length_nil] at hx
    omega
  | append m j v col hr hget hlen ih =>
    intro a ha b hb
    have hnewlens : (Model.mk (m.columns.set j ⟨col.nullable, col.cells ++ [v]⟩)
        m.enclosing).lens = m.lens.set j (col.cells.length + 1) := by
      simp [Model.lens, List.map_set]
    rw [hnewlens] at ha hb
    have hne : m.columns ≠ [] := by
      intro hc
      rw [hc] at hget
      simp at hget
    have hlnil : m.lens ≠ [] := by
      simp only [Model.lens, Ne, List.map_eq_nil_iff]
      exact hne
    have hminmem : (Model.row_count m).1 ∈ m.lens := minmax_fst_mem hlnil
    rcases List.mem_or_eq_of_mem_set ha with ha' | ha' <;>
      rcases List.mem_or_eq_of_mem_set hb with hb' | hb'
    · exact ih a ha' b hb'
    · have h1 : a ≤ (Model.row_count m).1 + 1 := ih a ha' _ hminmem
      omega
    · have h2 : (Model.row_count m).1 ≤ b := minmax_fst_le hb'
      omega
    · omega
  | autocompleteStep m m' hr hok ih =>
    intro a ha b hb
    have ha' := modelTB_ok_all_eq hok a ha
    have hb' := modelTB_ok_all_eq hok b hb
    omega
  | flushStep m m' bt hr hfl ih =>
    intro a ha b hb
    unfold Model.flush at hfl
    by_cases hc : (Model.row_count m).1 = (Model.row_count m).2
    · rw [if_pos hc] at hfl
      cases hfl
      simp only [Model.lens, List.map_map, List.mem_map, Function.comp] at ha
      obtain ⟨x, _, hx⟩ := ha
      simp only [List.length_nil] at hx
      omega
    · rw [if_neg hc] at hfl
      cases hfl

/-- Claim C4: for every builder state reachable with at most one partial row,
`row_count()` (the minimum and maximum of the node's direct column lengths)
is of the form `(n, n)` or `(n, n + 1)`, and its two components are equal
exactly when every column is aligned (all direct column lengths equal). -/
theorem c4_row_count_single_pending_invariant (m : Model) (h : Reachable m) :
    (∃ n, Model.row_count m = (n, n) ∨ Model.row_count m = (n, n + 1)) ∧
      ((Model.row_count m).1 = (Model.row_count m).2 ↔
        ∀ a ∈ m.lens, ∀ b ∈ m.lens, a = b) := by
  have hsp := reachable_spread h
  by_cases hnil : m.lens = []
  · constructor
    · refine ⟨0, Or.inl ?_⟩
      show minmax m.lens = (0, 0)
      rw [hnil]
      rfl
    · constructor
      · intro _ a ha
        rw [hnil] at ha
        cases ha
      · intro _
        show (minmax m.lens).1 = (minmax m.lens).2
        rw [hnil]
        rfl
  · have hminmem : (Model.row_count m).1 ∈ m.lens := minmax_fst_mem hnil
    have hmaxmem : (Model.row_count m).2 ∈ m.lens := minmax_snd_mem hnil
    have hminle : (Model.row_count m).1 ≤ (Model.row_count m).2 :=
      minmax_fst_le hmaxmem
    have hspan : (Model.row_count m).2 ≤ (Model.row_count m).1 + 1 :=
      hsp _ hmaxmem _ hminmem
    constructor
    · refine ⟨(Model.row_count m).1, ?_⟩
      have hcases : (Model.row_count m).2 = (Model.row_count m).1 ∨
          (Model.row_count m).2 = (Model.row_count m).1 + 1 := by omega
      rcases hcases with h1 | h1
      · left
        calc Model.row_count m
            = ((Model.row_count m).1, (Model.row_count m).2) := rfl
        _ = ((Model.row_count m).1, (Model.row_count m).1) := by rw [h1]
      · right
        calc Model.row_count m
            = ((Model.row_count m).1, (Model.row_count m).2) := rfl
        _ = ((Model.row_count m).1, (Model.row_count m).1 + 1) := by rw [h1]
    · constructor
      · intro heq a ha b hb
        have h1 : (Model.row_count m).1 ≤ a := minmax_fst_le ha
        have h2 : a ≤ (Model.row_count m).2 := le_minmax_snd ha
        have h3 : (Model.row_count m).1 ≤ b := minmax_fst_le hb
        have h4 : b ≤ (Model.row_count m).2 := le_minmax_snd hb
        omega
      · intro hall
        exact hall _ hminmem _ hmaxmem

/-- Witness for C4: the state reached from a fresh two-column node by one
legal append to column 0 — one partial row pending. -/
theorem c4_witness :
    (∃ n,
        Model.row_count
            ⟨([true, false].map (fun b => ⟨b, []⟩)).set 0 ⟨true, [] ++ [some ()]⟩,
              (none : Option Unit)⟩ = (n, n) ∨
          Model.row_count
              ⟨([true, false].map (fun b => ⟨b, []⟩)).set 0 ⟨true, [] ++ [some ()]⟩,
                (none : Option Unit)⟩ = (n, n + 1)) ∧
      ((Model.row_count
            ⟨([true, false].map (fun b => ⟨b, []⟩)).set 0 ⟨true, [] ++ [some ()]⟩,
              (none : Option Unit)⟩).1 =
          (Model.row_count
            ⟨([true, false].map (fun b => ⟨b, []⟩)).set 0 ⟨true, [] ++ [some ()]⟩,
              (none : Option Unit)⟩).2 ↔
        ∀ a ∈ (Model.mk
            (([true, false].map (fun b => ⟨b, []⟩)).set 0 ⟨true, [] ++ [some ()]⟩)
            (none : Option Unit)).lens,
          ∀ b ∈ (Model.mk
              (([true, false].map (fun b => ⟨b, []⟩)).set 0 ⟨true, [] ++ [some ()]⟩)
              (none : Option Unit)).lens, a = b) :=
  c4_row_count_single_pending_invariant _
    (Reachable.append ⟨[true, false].map (fun b => ⟨b, []⟩), none⟩ 0 (some ())
      ⟨true, []⟩ (Reachable.init [true, false] none) rfl rfl)
